import Mathlib

/-!
# Verification of the hpc-software-utility module inventory tool

A shallow embedding, in Lean, of the core logic of
`src/hpc-software-utility/__init__.py`: dependency extraction from module
definition files (the `depends_on("<name>")` regular expression), path-depth
cleanup for stacked collections, keyword filtering, report emission, and
collection-name validation.  Strings are modelled as lists of characters
(`Str`), the filesystem as explicit listings and read results, and
`sys.exit(1)` / uncaught exceptions as `Option` / `Except` failure values.
-/

namespace HpcSU

/-- Python strings are modelled as lists of characters. -/
abbrev Str := List Char

/-- Characters matched by the regular-expression class `\s` (ASCII range), as
used by `re.findall(r'^\s*depends_on\("([^"]+)"\)', ..., re.MULTILINE)` in
`get_module_dependency`.  (For `str` patterns Python additionally treats some
rare non-ASCII code points as whitespace; no behaviour modelled here depends
on those.) -/
def wsChar (c : Char) : Bool :=
  c = ' ' || c = '\t' || c = '\n' || c = '\r' || c = '\x0b' || c = '\x0c'

/-- The literal part `depends_on("` of the dependency regular expression. -/
def literalDeps : Str := "depends_on(\"".toList

/-- The character class `[^"]` of the dependency regular expression. -/
def nq (c : Char) : Bool := c != '"'

/-- After the literal `depends_on("` has been matched, match `([^"]+)"\)`:
the capture is the (non-empty) run of non-quote characters, which must be
followed immediately by `"` and then `)`.  Returns the capture and the rest of
the input after the match.  This is exactly what the backtracking engine does:
`[^"]+` is forced to stop at the first `"`, and no shorter match can put a
`"` at the quote position. -/
def scanToken (s : Str) : Option (Str × Str) :=
  match s.dropWhile nq with
  | '"' :: ')' :: r =>
    if s.takeWhile nq = [] then none else some (s.takeWhile nq, r)
  | _ => none

/-- State update for the scanner: `anchored` records whether every character
since the most recent newline (or the start of the content) is `\s`
whitespace, i.e. whether a `^\s*` prefix of the pattern can reach the current
position (under `re.MULTILINE`, `^` matches at the start and after each
newline, and `\s*` then consumes whitespace). -/
def stepAnchor (anchored : Bool) (c : Char) : Bool :=
  c = '\n' || (anchored && wsChar c)

/-- Attempt the pattern `^\s*depends_on\("([^"]+)"\)` at the current position:
it can succeed only when the position is reachable from a line anchor through
whitespace and the literal starts here. -/
def tryMatch (anchored : Bool) (s : Str) : Option (Str × Str) :=
  if anchored && literalDeps.isPrefixOf s then scanToken (s.drop 12) else none

/-- Left-to-right non-overlapping scan of the content for the dependency
pattern, as performed by `re.findall`: at each position, try the pattern; on
success emit the capture and resume after the match (the match ends with `)`,
a non-whitespace character, so the anchor state restarts at `false`); on
failure advance one character.  The fuel argument only bounds the recursion
and is in practice at least the length of the remaining input. -/
def depScanAux : Nat → Bool → Str → List Str
  | 0, _, _ => []
  | _ + 1, _, [] => []
  | fuel + 1, anchored, c :: rest =>
    match tryMatch anchored (c :: rest) with
    | some (tok, r) => tok :: depScanAux fuel false r
    | none => depScanAux fuel (stepAnchor anchored c) rest

/-- The list of captures of
`re.findall(r'^\s*depends_on\("([^"]+)"\)', content, re.MULTILINE)`
from `get_module_dependency` (line 142 of the source). -/
def getDeps (content : Str) : List Str :=
  depScanAux content.length true content

/-- Split a string at every occurrence of the separator character, keeping
empty pieces — the behaviour of Python's `str.split(sep)` with an explicit
separator, used as `mod.split('/')` in `stacked_module_path_cleanup`, and,
with `'\n'`, the line decomposition relevant to `re.MULTILINE`. -/
def splitChar (sep : Char) : Str → List Str
  | [] => [[]]
  | c :: rest =>
    if c = sep then [] :: splitChar sep rest
    else
      match splitChar sep rest with
      | [] => [[c]]
      | l :: ls => (c :: l) :: ls

/-- The per-line reading of the dependency pattern used by the specification:
a line yields a dependency name exactly when, after optional leading
whitespace, it begins with `depends_on("<name>")` for a non-empty quote-free
`<name>`. -/
def lineDep (line : Str) : Option Str :=
  if literalDeps.isPrefixOf (line.dropWhile wsChar) then
    (scanToken ((line.dropWhile wsChar).drop 12)).map Prod.fst
  else none

/-- Python's substring containment test `kw in s` on strings. -/
def strIn (kw : Str) : Str → Bool
  | [] => kw.isEmpty
  | c :: t => kw.isPrefixOf (c :: t) || strIn kw t

/-- Model of `Filter` (source lines 17–35):
`list(filter(lambda x: any(keyword in item for sublist in x for item in sublist), data))`.
`data` is a list of groups, each group a list of records, each record a list
of string fields; a group is retained when the keyword occurs as a substring
of any field of any of its records. -/
def Filter (data : List (List (List Str))) (keyword : Str) : List (List (List Str)) :=
  data.filter fun x => x.any fun sublist => sublist.any fun item => strIn keyword item

/-- Modelled from the spec: "retain only those groups where at least one field
of at least one record (dependency string) contains the keyword".  Read, as
the claim reads it, as testing only the dependency-string field, which is the
last field of every record produced by the scanner.  Stated for comparison
with `Filter`. -/
def FilterByDependency (data : List (List (List Str))) (keyword : Str) :
    List (List (List Str)) :=
  data.filter fun x => x.any fun record => strIn keyword (record.getLastD [])

/-- Python's `", ".join(matches)` from `get_module_dependency`. -/
def joinComma : List Str → Str
  | [] => []
  | [d] => d
  | d :: rest => d ++ ", ".toList ++ joinComma rest

/-- Outcome of `open(file); file.read()` for one module definition file
matched by the glob pattern. -/
inductive ReadResult
  | ok (content : Str)
  | fnf
  | failure (msg : Str)
deriving DecidableEq

/-- Model of `get_module_dependency` (source lines 97–158).  `files` is the
glob result: for each file, its base name without extension (`Path(file).stem`)
and the outcome of reading it.  A successfully read file contributes the
record `[pkg_name/stem, ", ".join(matches)]`, or `[pkg_name/stem, ""]` when
the pattern finds nothing.  A read failing with any exception other than
`FileNotFoundError` is reported as a warning and the file is skipped.  A read
failing with `FileNotFoundError` reaches
`print(f"Error: File '{filename}' not found.")`, which evaluates the
undefined name `filename` and raises `NameError`; the sibling
`except Exception` clause of the same `try` does not catch an exception
raised inside another handler, so the `NameError` escapes the function and
aborts the whole scan — modelled by `Except.error ()`. -/
def get_module_dependency (pkg_name : Str) :
    List (Str × ReadResult) → Except Unit (List (List Str))
  | [] => Except.ok []
  | (stem, res) :: rest =>
    match res with
    | ReadResult.ok content =>
      let found := getDeps content
      let record :=
        if found.length > 0 then [pkg_name ++ '/' :: stem, joinComma found]
        else [pkg_name ++ '/' :: stem, []]
      (get_module_dependency pkg_name rest).map fun out => record :: out
    | ReadResult.fnf => Except.error ()
    | ReadResult.failure _ => get_module_dependency pkg_name rest

/-- Model of `get_module_names` (source lines 160–195).  `listing` is the
result of `os.listdir(os.path.join(directory, collection))`, each entry paired
with whether it is a directory; `collectionIsDir` is
`os.path.isdir(os.path.join(directory, collection))` — note the comprehension
guard tests this path, not the individual entry, so the per-entry directory
flag is never consulted. -/
def get_module_names (listing : List (Str × Bool)) (collectionIsDir : Bool) : List Str :=
  (listing.filter fun _ => collectionIsDir).map Prod.fst

/-- Model of `stacked_module_path_cleanup` (source lines 239–285): keep the
walked paths whose `'/'`-segment count is exactly 7 for `MPI`, 6 for `Python`
and 7 for `Compilers`; any other collection name falls through to
`sys.exit(1)`, modelled as `none` (the process terminates with a non-zero
status). -/
def stacked_module_path_cleanup (modules : List Str) (collection : Str) :
    Option (List Str) :=
  if collection = "MPI".toList then
    some (modules.filter fun mod => (splitChar '/' mod).length == 7)
  else if collection = "Python".toList then
    some (modules.filter fun mod => (splitChar '/' mod).length == 6)
  else if collection = "Compilers".toList then
    some (modules.filter fun mod => (splitChar '/' mod).length == 7)
  else none

/-- What a collection's report branch prints: either a table (headers plus the
flattened rows) or the zero-result message. -/
inductive Report
  | table (headers : List Str) (rows : List (List Str))
  | zeroFound (msg : Str)
deriving DecidableEq

/-- The emission step shared by the branches of `stacked_case`
(lines 352–358, 380–386, 408–414) and of `main` (lines 509–515):
`if len(output) > 0: print(tabulate([x for item in output for x in item], headers, ...))`
`else: print(f"0 softwares found for {collection}")`.
The guard tests the list of per-module record groups; the rows handed to the
renderer are its flattening. -/
def emitReport (headers : List Str) (output : List (List (List Str)))
    (collection : Str) : Report :=
  if output.length > 0 then Report.table headers output.flatten
  else Report.zeroFound ("0 softwares found for ".toList ++ collection)

/-- Model of the collection selection in `main` (source lines 460–484):
discovered collections have the literal `"Collections"` entry removed; when
the user supplies a collection list, it is accepted only if every requested
name is among the remaining ones, otherwise `"Invalid Collection Name"` is
printed and the process exits with status 1 before any scan — modelled by
`Except.error` carrying the message. -/
def selectCollections (discovered : List Str) (requested : Option (List Str)) :
    Except Str (List Str) :=
  let available := discovered.filter fun col => col != "Collections".toList
  match requested with
  | none => Except.ok available
  | some req =>
    if req.all fun x => available.contains x then Except.ok req
    else Except.error ("Invalid Collection Name".toList)

/-! ## Basic facts about the scanner -/

theorem depScanAux_nil (f : Nat) (a : Bool) : depScanAux f a [] = [] := by
  cases f <;> rfl

theorem tryMatch_false (s : Str) : tryMatch false s = none := rfl

theorem scanToken_eq_some {u t r : Str} :
    scanToken u = some (t, r) ↔
      u.takeWhile nq = t ∧ t ≠ [] ∧ u.dropWhile nq = '"' :: ')' :: r := by
  unfold scanToken
  split
  · rename_i w heq
    split
    · rename_i hnil
      simp only [reduceCtorEq, false_iff]
      rintro ⟨ht, hne, -⟩
      exact hne (ht ▸ hnil)
    · rename_i hnil
      rw [heq]
      constructor
      · rintro h
        injection h with h
        injection h with h1 h2
        exact ⟨h1, fun hn => hnil (h1 ▸ hn), by rw [h2]⟩
      · rintro ⟨h1, -, h2⟩
        injection h2 with _ h2
        injection h2 with _ h2
        rw [h1, h2]
  · rename_i hn
    simp only [reduceCtorEq, false_iff]
    rintro ⟨-, -, hd⟩
    exact hn _ hd

theorem scanToken_some_suffix {u t r : Str} (h : scanToken u = some (t, r)) :
    r <:+ u := by
  obtain ⟨-, -, hd⟩ := scanToken_eq_some.mp h
  have h1 : r <:+ '"' :: ')' :: r :=
    (List.suffix_cons ')' r).trans (List.suffix_cons '"' (')' :: r))
  exact (hd ▸ h1).trans (List.dropWhile_suffix nq)

theorem scanToken_some_length {u t r : Str} (h : scanToken u = some (t, r)) :
    r.length + 2 ≤ u.length := by
  obtain ⟨-, -, hd⟩ := scanToken_eq_some.mp h
  have := (List.dropWhile_suffix (l := u) nq).length_le
  rw [hd] at this
  simpa using this

theorem tryMatch_some_length {a : Bool} {s t r : Str}
    (h : tryMatch a s = some (t, r)) : r.length < s.length := by
  unfold tryMatch at h
  split at h
  · have h2 := scanToken_some_length h
    rw [List.length_drop] at h2
    omega
  · exact absurd h (by simp)

theorem tryMatch_true_some {s t r : Str} (h : tryMatch true s = some (t, r)) :
    literalDeps.isPrefixOf s = true ∧ scanToken (s.drop 12) = some (t, r) := by
  unfold tryMatch at h
  split at h
  · rename_i hc
    exact ⟨by simpa using hc, h⟩
  · exact absurd h (by simp)

theorem tryMatch_true_none {s : Str} (h : tryMatch true s = none)
    (hp : literalDeps.isPrefixOf s = true) : scanToken (s.drop 12) = none := by
  unfold tryMatch at h
  rw [Bool.true_and, hp] at h
  simpa using h

theorem depScanAux_fuel_eq :
    ∀ f₁ f₂ : Nat, ∀ a : Bool, ∀ s : Str, s.length ≤ f₁ → s.length ≤ f₂ →
      depScanAux f₁ a s = depScanAux f₂ a s := by
  intro f₁
  induction f₁ with
  | zero =>
    intro f₂ a s h1 _
    have : s = [] := List.eq_nil_of_length_eq_zero (Nat.le_zero.mp h1)
    subst this
    rw [depScanAux_nil, depScanAux_nil]
  | succ f ih =>
    intro f₂ a s h1 h2
    match s with
    | [] => rw [depScanAux_nil, depScanAux_nil]
    | c :: rest =>
      match f₂ with
      | 0 => simp at h2
      | f₂' + 1 =>
        show (match tryMatch a (c :: rest) with
          | some (tok, r) => tok :: depScanAux f false r
          | none => depScanAux f (stepAnchor a c) rest) =
          (match tryMatch a (c :: rest) with
          | some (tok, r) => tok :: depScanAux f₂' false r
          | none => depScanAux f₂' (stepAnchor a c) rest)
        cases htm : tryMatch a (c :: rest) with
        | some p =>
          obtain ⟨tok, r⟩ := p
          have hr := tryMatch_some_length htm
          simp only [List.length_cons] at h1 h2 hr
          exact congrArg (tok :: ·) (ih f₂' false r (by omega) (by omega))
        | none =>
          simp only [List.length_cons] at h1 h2
          exact ih f₂' (stepAnchor a c) rest (by omega) (by omega)

/-! ## The literal and whitespace -/

theorem literalDeps_eq :
    literalDeps = ['d', 'e', 'p', 'e', 'n', 'd', 's', '_', 'o', 'n', '(', '"'] := by
  decide

theorem nl_not_mem_literalDeps : '\n' ∉ literalDeps := by decide

theorem literal_not_prefix_cons {c : Char} (hc : c ≠ 'd') (l : Str) :
    literalDeps.isPrefixOf (c :: l) = false := by
  rw [literalDeps_eq]
  simp only [List.isPrefixOf, Bool.and_eq_false_iff]
  left
  simpa using fun h => hc h.symm

theorem ws_ne_d {c : Char} (hc : wsChar c = true) : c ≠ 'd' := by
  rintro rfl
  simp [wsChar] at hc

theorem ws_not_nl_of_not_mem {c : Char} {l : Str} (h : '\n' ∉ c :: l) : c ≠ '\n' :=
  fun hc => h (hc ▸ List.mem_cons_self c l)

theorem stepAnchor_false {c : Char} (hc : c ≠ '\n') :
    stepAnchor false c = false := by
  simp [stepAnchor, hc]

theorem stepAnchor_false_nl : stepAnchor false '\n' = true := by
  simp [stepAnchor]

theorem stepAnchor_true_ws {c : Char} (hc : wsChar c = true) :
    stepAnchor true c = true := by
  simp [stepAnchor, hc]

theorem stepAnchor_true_not_ws {c : Char} (hc : wsChar c = false) :
    stepAnchor true c = false := by
  have hnl : c ≠ '\n' := by
    rintro rfl
    simp [wsChar] at hc
  simp [stepAnchor, hc, hnl]

theorem isPrefixOf_append_of_isPrefixOf {p a : Str} (b : Str)
    (h : p.isPrefixOf a = true) : p.isPrefixOf (a ++ b) = true := by
  rw [List.isPrefixOf_iff_prefix] at h ⊢
  exact h.trans (List.prefix_append a b)

theorem literal_prefix_split {a z : Str}
    (h : literalDeps.isPrefixOf (a ++ '\n' :: z) = true) :
    literalDeps.isPrefixOf a = true ∧ 12 ≤ a.length := by
  rw [List.isPrefixOf_iff_prefix] at h
  have hlen : literalDeps.length = 12 := by rw [literalDeps_eq]; rfl
  have htake := List.prefix_iff_eq_take.mp h
  rw [hlen] at htake
  have h12 : 12 ≤ a.length := by
    by_contra hlt
    push_neg at hlt
    rw [List.take_append_eq_append_take] at htake
    have ha : a.take 12 = a := List.take_of_length_le (by omega)
    rw [ha] at htake
    have hpos : 0 < 12 - a.length := by omega
    have : '\n' ∈ literalDeps := by
      rw [htake]
      refine List.mem_append_right _ ?_
      match hh : 12 - a.length, hpos with
      | n + 1, _ => simp [List.take_cons]
    exact nl_not_mem_literalDeps this
  refine ⟨?_, h12⟩
  rw [List.isPrefixOf_iff_prefix, List.prefix_iff_eq_take, hlen]
  rw [List.take_append_eq_append_take] at htake
  have : 12 - a.length = 0 := by omega
  rw [this] at htake
  simpa using htake

theorem drop12_append {a : Str} (b : Str) (h : 12 ≤ a.length) :
    (a ++ b).drop 12 = a.drop 12 ++ b := by
  rw [List.drop_append_eq_append_drop]
  have : 12 - a.length = 0 := by omega
  rw [this, List.drop_zero]

/-! ## takeWhile and dropWhile over appends, for the class `[^"]` -/

theorem takeWhile_nq_append_no_quote {u : Str} (v : Str) (h : '"' ∉ u) :
    (u ++ v).takeWhile nq = u ++ v.takeWhile nq := by
  induction u with
  | nil => rfl
  | cons c t ih =>
    have hc : nq c = true := by
      simp only [nq, bne_iff_ne, ne_eq, decide_eq_true_eq]
      exact fun hcq => h (hcq ▸ List.mem_cons_self c t)
    simp only [List.cons_append, List.takeWhile_cons, hc, if_true]
    rw [ih (fun hm => h (List.mem_cons_of_mem c hm))]

theorem takeWhile_nq_append_quote {u : Str} (v : Str) (h : '"' ∈ u) :
    (u ++ v).takeWhile nq = u.takeWhile nq := by
  induction u with
  | nil => simp at h
  | cons c t ih =>
    by_cases hc : c = '"'
    · subst hc
      simp [List.takeWhile_cons, nq]
    · have hq : nq c = true := by simp [nq, hc]
      have ht : '"' ∈ t := by
        rcases List.mem_cons.mp h with h1 | h1
        · exact absurd h1.symm hc
        · exact h1
      simp only [List.cons_append, List.takeWhile_cons, hq, if_true]
      rw [ih ht]

theorem dropWhile_nq_append_quote {u : Str} (v : Str) (h : '"' ∈ u) :
    (u ++ v).dropWhile nq = u.dropWhile nq ++ v := by
  induction u with
  | nil => simp at h
  | cons c t ih =>
    by_cases hc : c = '"'
    · subst hc
      simp [List.dropWhile_cons, nq]
    · have hq : nq c = true := by simp [nq, hc]
      have ht : '"' ∈ t := by
        rcases List.mem_cons.mp h with h1 | h1
        · exact absurd h1.symm hc
        · exact h1
      simp only [List.cons_append, List.dropWhile_cons, hq, if_true]
      exact ih ht

theorem quote_mem_of_dropWhile_cons {u w : Str}
    (h : u.dropWhile nq = '"' :: w) : '"' ∈ u := by
  have hs := List.dropWhile_suffix (l := u) nq
  rw [h] at hs
  exact hs.subset (List.mem_cons_self _ _)

theorem scanToken_append {u t w : Str} (z : Str)
    (h : scanToken u = some (t, w)) : scanToken (u ++ z) = some (t, w ++ z) := by
  obtain ⟨htw, hne, hdw⟩ := scanToken_eq_some.mp h
  have hq : '"' ∈ u := quote_mem_of_dropWhile_cons hdw
  refine scanToken_eq_some.mpr ⟨?_, hne, ?_⟩
  · rw [takeWhile_nq_append_quote z hq, htw]
  · rw [dropWhile_nq_append_quote z hq, hdw]
    rfl

/-! ## Scanning with the anchor off -/

theorem depScan_false_no_nl :
    ∀ f : Nat, ∀ s : Str, '\n' ∉ s → depScanAux f false s = [] := by
  intro f
  induction f with
  | zero => intro s _; rfl
  | succ f ih =>
    intro s hnl
    match s with
    | [] => rfl
    | c :: rest =>
      show (match tryMatch false (c :: rest) with
        | some (tok, r) => tok :: depScanAux f false r
        | none => depScanAux f (stepAnchor false c) rest) = []
      rw [tryMatch_false]
      rw [stepAnchor_false (ws_not_nl_of_not_mem hnl)]
      exact ih rest (fun hm => hnl (List.mem_cons_of_mem c hm))

theorem depScan_false_line :
    ∀ line : Str, ∀ f : Nat, ∀ rest : Str, '\n' ∉ line →
      line.length + 1 + rest.length ≤ f →
      depScanAux f false (line ++ '\n' :: rest) = depScanAux rest.length true rest := by
  intro line
  induction line with
  | nil =>
    intro f rest _ hf
    simp only [List.length_nil] at hf
    obtain ⟨f', rfl⟩ : ∃ f', f = f' + 1 := ⟨f - 1, by omega⟩
    show (match tryMatch false ('\n' :: rest) with
      | some (tok, r) => tok :: depScanAux f' false r
      | none => depScanAux f' (stepAnchor false '\n') rest) = _
    rw [tryMatch_false, stepAnchor_false_nl]
    exact depScanAux_fuel_eq f' rest.length true rest (by omega) le_rfl
  | cons c t ih =>
    intro f rest hnl hf
    simp only [List.length_cons] at hf
    obtain ⟨f', rfl⟩ : ∃ f', f = f' + 1 := ⟨f - 1, by omega⟩
    show (match tryMatch false (c :: (t ++ '\n' :: rest)) with
      | some (tok, r) => tok :: depScanAux f' false r
      | none => depScanAux f' (stepAnchor false c) (t ++ '\n' :: rest)) = _
    rw [tryMatch_false, stepAnchor_false (ws_not_nl_of_not_mem hnl)]
    exact ih f' rest (fun hm => hnl (List.mem_cons_of_mem c hm)) (by omega)

theorem tryMatch_not_d {c : Char} (hc : c ≠ 'd') (rest : Str) :
    tryMatch true (c :: rest) = none := by
  unfold tryMatch
  rw [Bool.true_and, literal_not_prefix_cons hc]
  rfl

/-- With the anchor on, scanning a newline-free string finds exactly the
per-line match. -/
theorem depScan_true_single_line :
    ∀ s : Str, ∀ f : Nat, s.length ≤ f → '\n' ∉ s →
      depScanAux f true s = (lineDep s).toList := by
  intro s
  induction s with
  | nil =>
    intro f _ _
    rw [depScanAux_nil]
    simp [lineDep, literalDeps_eq, List.isPrefixOf]
  | cons c rest ih =>
    intro f hf hnl
    simp only [List.length_cons] at hf
    obtain ⟨f', rfl⟩ : ∃ f', f = f' + 1 := ⟨f - 1, by omega⟩
    have hnlr : '\n' ∉ rest := fun hm => hnl (List.mem_cons_of_mem c hm)
    show (match tryMatch true (c :: rest) with
      | some (tok, r) => tok :: depScanAux f' false r
      | none => depScanAux f' (stepAnchor true c) rest) = _
    by_cases hws : wsChar c = true
    · rw [tryMatch_not_d (ws_ne_d hws), stepAnchor_true_ws hws]
      rw [ih f' (by omega) hnlr]
      simp [lineDep, List.dropWhile_cons, hws]
    · have hws' : wsChar c = false := by simpa using hws
      have hdw : (c :: rest).dropWhile wsChar = c :: rest := by
        simp [List.dropWhile_cons, hws']
      cases htm : tryMatch true (c :: rest) with
      | some p =>
        obtain ⟨tok, r⟩ := p
        obtain ⟨hp, hsc⟩ := tryMatch_true_some htm
        have hnr : '\n' ∉ r := fun hm =>
          hnl (List.drop_subset 12 (c :: rest) ((scanToken_some_suffix hsc).subset hm))
        show tok :: depScanAux f' false r = (lineDep (c :: rest)).toList
        rw [depScan_false_no_nl f' r hnr]
        unfold lineDep
        rw [hdw]
        simp only [hp, if_true]
        rw [hsc]
        rfl
      | none =>
        show depScanAux f' (stepAnchor true c) rest = (lineDep (c :: rest)).toList
        rw [stepAnchor_true_not_ws hws', depScan_false_no_nl f' rest hnlr]
        by_cases hp : literalDeps.isPrefixOf (c :: rest) = true
        · have hsc := tryMatch_true_none htm hp
          unfold lineDep
          rw [hdw]
          simp only [hp, if_true]
          rw [hsc]
          rfl
        · have hp' : literalDeps.isPrefixOf (c :: rest) = false :=
            Bool.eq_false_iff.mpr hp
          unfold lineDep
          rw [hdw]
          simp [hp']

theorem dropWhile_nq_quote_cons {u : Str} (h : '"' ∈ u) :
    ∃ w, u.dropWhile nq = '"' :: w := by
  induction u with
  | nil => simp at h
  | cons c t ih =>
    by_cases hc : c = '"'
    · subst hc
      exact ⟨t, by simp [List.dropWhile_cons, nq]⟩
    · have hq : nq c = true := by simp [nq, hc]
      have ht : '"' ∈ t := by
        rcases List.mem_cons.mp h with h1 | h1
        · exact absurd h1.symm hc
        · exact h1
      obtain ⟨w, hw⟩ := ih ht
      exact ⟨w, by simp [List.dropWhile_cons, hq, hw]⟩

theorem lineDep_nil : lineDep [] = none := by
  simp [lineDep, literalDeps_eq, List.isPrefixOf]

/-- Peeling one line off the content: with the anchor on, scanning
`line ++ '\n' :: rest` yields the per-line match of `line` followed by the
scan of `rest` — provided no capture of the whole scan contains a newline
(a capture produced by an unclosed quote re-closed on a later line would
otherwise swallow the line boundary). -/
theorem depScan_true_line :
    ∀ line : Str, ∀ f : Nat, ∀ rest : Str, '\n' ∉ line →
      line.length + 1 + rest.length ≤ f →
      (∀ tk ∈ depScanAux f true (line ++ '\n' :: rest), '\n' ∉ tk) →
      depScanAux f true (line ++ '\n' :: rest)
        = (lineDep line).toList ++ depScanAux rest.length true rest := by
  intro line
  induction line with
  | nil =>
    intro f rest _ hf _
    simp only [List.length_nil] at hf
    obtain ⟨f', rfl⟩ : ∃ f', f = f' + 1 := ⟨f - 1, by omega⟩
    show (match tryMatch true ('\n' :: rest) with
      | some (tok, r) => tok :: depScanAux f' false r
      | none => depScanAux f' (stepAnchor false '\n') rest)
      = (lineDep []).toList ++ depScanAux rest.length true rest
    rw [tryMatch_not_d (by decide), stepAnchor_false_nl, lineDep_nil]
    rw [depScanAux_fuel_eq f' rest.length true rest (by omega) le_rfl]
    rfl
  | cons c t ih =>
    intro f rest hnl hf H
    simp only [List.length_cons] at hf
    obtain ⟨f', rfl⟩ : ∃ f', f = f' + 1 := ⟨f - 1, by omega⟩
    have hnlt : '\n' ∉ t := fun hm => hnl (List.mem_cons_of_mem c hm)
    by_cases hws : wsChar c = true
    · -- leading whitespace: the anchor survives and the line test skips it
      have hstep : depScanAux (f' + 1) true ((c :: t) ++ '\n' :: rest)
          = depScanAux f' true (t ++ '\n' :: rest) := by
        show (match tryMatch true (c :: (t ++ '\n' :: rest)) with
          | some (tok, r) => tok :: depScanAux f' false r
          | none => depScanAux f' (stepAnchor true c) (t ++ '\n' :: rest)) = _
        rw [tryMatch_not_d (ws_ne_d hws), stepAnchor_true_ws hws]
      rw [hstep]
      have H' : ∀ tk ∈ depScanAux f' true (t ++ '\n' :: rest), '\n' ∉ tk := by
        intro tk hm
        exact H tk (by rw [hstep]; exact hm)
      rw [ih f' rest hnlt (by omega) H']
      have : lineDep (c :: t) = lineDep t := by
        simp [lineDep, List.dropWhile_cons, hws]
      rw [this]
    · have hws' : wsChar c = false := Bool.eq_false_iff.mpr hws
      have hdw : (c :: t).dropWhile wsChar = c :: t := by
        simp [List.dropWhile_cons, hws']
      cases htm : tryMatch true (c :: (t ++ '\n' :: rest)) with
      | none =>
        have hstep : depScanAux (f' + 1) true ((c :: t) ++ '\n' :: rest)
            = depScanAux f' false (t ++ '\n' :: rest) := by
          show (match tryMatch true (c :: (t ++ '\n' :: rest)) with
            | some (tok, r) => tok :: depScanAux f' false r
            | none => depScanAux f' (stepAnchor true c) (t ++ '\n' :: rest)) = _
          rw [htm, stepAnchor_true_not_ws hws']
        rw [hstep, depScan_false_line t f' rest hnlt (by omega)]
        suffices hld : lineDep (c :: t) = none by rw [hld]; rfl
        by_cases hpl : literalDeps.isPrefixOf (c :: t) = true
        · have hp : literalDeps.isPrefixOf ((c :: t) ++ '\n' :: rest) = true :=
            isPrefixOf_append_of_isPrefixOf _ hpl
          have hscfull := tryMatch_true_none (s := (c :: t) ++ '\n' :: rest) htm hp
          have h12 : 12 ≤ (c :: t).length := by
            have := List.isPrefixOf_iff_prefix.mp hpl
            have := this.length_le
            rw [literalDeps_eq] at this
            simpa using this
          rw [drop12_append ('\n' :: rest) h12] at hscfull
          have hscline : scanToken ((c :: t).drop 12) = none := by
            cases hsc : scanToken ((c :: t).drop 12) with
            | none => rfl
            | some p =>
              obtain ⟨tk, w⟩ := p
              exact absurd (scanToken_append ('\n' :: rest) hsc)
                (by rw [hscfull]; simp)
          unfold lineDep
          rw [hdw]
          simp only [hpl, if_true]
          rw [hscline]
          rfl
        · have hpl' : literalDeps.isPrefixOf (c :: t) = false :=
            Bool.eq_false_iff.mpr hpl
          unfold lineDep
          rw [hdw]
          simp [hpl']
      | some p =>
        obtain ⟨tok, r⟩ := p
        obtain ⟨hp, hsc⟩ := tryMatch_true_some htm
        have hstep : depScanAux (f' + 1) true ((c :: t) ++ '\n' :: rest)
            = tok :: depScanAux f' false r := by
          show (match tryMatch true (c :: (t ++ '\n' :: rest)) with
            | some (tok, r) => tok :: depScanAux f' false r
            | none => depScanAux f' (stepAnchor true c) (t ++ '\n' :: rest)) = _
          rw [htm]
        have htok : '\n' ∉ tok :=
          H tok (by rw [hstep]; exact List.mem_cons_self _ _)
        obtain ⟨hpl, h12⟩ := literal_prefix_split (a := c :: t) (z := rest)
          (by rw [List.cons_append]; exact hp)
        have hdrop : (c :: (t ++ '\n' :: rest)).drop 12
            = (c :: t).drop 12 ++ '\n' :: rest := by
          rw [← List.cons_append]
          exact drop12_append ('\n' :: rest) h12
        rw [hdrop] at hsc
        obtain ⟨htw, hne, hdq⟩ := scanToken_eq_some.mp hsc
        have hnlu : '\n' ∉ (c :: t).drop 12 :=
          fun hm => hnl (List.drop_subset 12 (c :: t) hm)
        have hqu : '"' ∈ (c :: t).drop 12 := by
          by_contra hq
          apply htok
          rw [← htw, takeWhile_nq_append_no_quote _ hq]
          refine List.mem_append_right _ ?_
          have : nq '\n' = true := by decide
          simp [List.takeWhile_cons, this]
        obtain ⟨w, hwq⟩ := dropWhile_nq_quote_cons hqu
        rw [dropWhile_nq_append_quote _ hqu, hwq] at hdq
        match w, hdq with
        | [], hdq =>
          simp only [List.cons_append, List.nil_append] at hdq
          injection hdq with _ hdq
          injection hdq with hdq
          exact absurd hdq (by decide)
        | w0 :: w', hdq =>
          simp only [List.cons_append] at hdq
          injection hdq with _ hdq
          injection hdq with hw0 hdq
          subst hw0
          have hscline : scanToken ((c :: t).drop 12) = some (tok, w') := by
            refine scanToken_eq_some.mpr ⟨?_, hne, ?_⟩
            · rw [← htw, takeWhile_nq_append_quote _ hqu]
            · rw [hwq]
          have hld : lineDep (c :: t) = some tok := by
            unfold lineDep
            rw [hdw]
            simp only [hpl, if_true]
            rw [hscline]
            rfl
          rw [hstep, hld]
          have hnw' : '\n' ∉ w' := by
            intro hm
            apply hnlu
            have hsfx : w' <:+ (c :: t).drop 12 := by
              have h1 : w' <:+ '"' :: ')' :: w' :=
                (List.suffix_cons ')' w').trans (List.suffix_cons '"' (')' :: w'))
              exact (hwq ▸ h1).trans (List.dropWhile_suffix nq)
            exact hsfx.subset hm
          have hrlen := tryMatch_some_length htm
          simp only [List.length_cons, List.length_append] at hrlen
          rw [← hdq, depScan_false_line w' f' rest hnw' (by rw [← hdq] at hrlen; simp at hrlen; omega)]
          rfl

/-! ## Splitting into lines -/

theorem splitChar_no_sep {sep : Char} :
    ∀ {s : Str}, sep ∉ s → splitChar sep s = [s] := by
  intro s
  induction s with
  | nil => intro _; rfl
  | cons c t ih =>
    intro h
    have hc : ¬c = sep := fun hc => h (hc ▸ List.mem_cons_self c t)
    have ht := ih (fun hm => h (List.mem_cons_of_mem c hm))
    simp [splitChar, hc, Ne.symm hc, ht]

theorem splitChar_append_sep {sep : Char} :
    ∀ {line : Str}, ∀ rest : Str, sep ∉ line →
      splitChar sep (line ++ sep :: rest) = line :: splitChar sep rest := by
  intro line
  induction line with
  | nil => intro rest _; simp [splitChar]
  | cons c t ih =>
    intro rest h
    have hc : ¬c = sep := fun hc => h (hc ▸ List.mem_cons_self c t)
    have ht := ih rest (fun hm => h (List.mem_cons_of_mem c hm))
    simp [splitChar, hc, Ne.symm hc, ht]

theorem first_sep_decomp (sep : Char) :
    ∀ s : Str, sep ∉ s ∨ ∃ line rest, s = line ++ sep :: rest ∧ sep ∉ line := by
  intro s
  induction s with
  | nil => exact Or.inl (by simp)
  | cons c t ih =>
    by_cases hc : c = sep
    · subst hc
      exact Or.inr ⟨[], t, rfl, by simp⟩
    · rcases ih with h | ⟨line, rest, rfl, hline⟩
      · exact Or.inl (by simp [hc, Ne.symm hc, h])
      · refine Or.inr ⟨c :: line, rest, rfl, ?_⟩
        intro hm
        rcases List.mem_cons.mp hm with h1 | h1
        · exact hc h1.symm
        · exact hline h1

theorem getDeps_eq_lines_aux :
    ∀ n : Nat, ∀ content : Str, content.length ≤ n →
      (∀ tk ∈ getDeps content, '\n' ∉ tk) →
      getDeps content = (splitChar '\n' content).filterMap lineDep := by
  intro n
  induction n with
  | zero =>
    intro content hlen _
    have : content = [] := List.eq_nil_of_length_eq_zero (Nat.le_zero.mp hlen)
    subst this
    simp [getDeps, depScanAux_nil, splitChar, lineDep_nil]
  | succ n ih =>
    intro content hlen H
    rcases first_sep_decomp '\n' content with hnl | ⟨line, rest, rfl, hline⟩
    · rw [splitChar_no_sep hnl]
      rw [getDeps, depScan_true_single_line content content.length le_rfl hnl]
      cases h : lineDep content <;> simp [h]
    · have hflen : line.length + 1 + rest.length ≤ (line ++ '\n' :: rest).length := by
        simp only [List.length_append, List.length_cons]
        omega
      have hmain : getDeps (line ++ '\n' :: rest)
          = (lineDep line).toList ++ getDeps rest :=
        depScan_true_line line (line ++ '\n' :: rest).length rest hline hflen H
      have hrest : ∀ tk ∈ getDeps rest, '\n' ∉ tk := by
        intro tk hm
        refine H tk ?_
        rw [hmain]
        exact List.mem_append_right _ hm
      have hrlen : rest.length ≤ n := by
        have : (line ++ '\n' :: rest).length = line.length + 1 + rest.length := by
          simp only [List.length_append, List.length_cons]
          omega
        omega
      rw [hmain, ih rest hrlen hrest, splitChar_append_sep rest hline,
        List.filterMap_cons]
      cases h : lineDep line <;> simp [h]

/-! ## Facts about the keyword filter -/

theorem strIn_iff {kw : Str} : ∀ {s : Str}, strIn kw s = true ↔ kw <:+: s := by
  intro s
  induction s with
  | nil =>
    simp [strIn, List.isEmpty_iff, List.infix_nil]
  | cons c t ih =>
    simp [strIn, Bool.or_eq_true, List.isPrefixOf_iff_prefix, ih,
      List.infix_cons_iff]

theorem Filter_mem_ne_nil {data : List (List (List Str))} {kw : Str} :
    ∀ g ∈ Filter data kw, g ≠ [] := by
  intro g hg
  rw [Filter, List.mem_filter] at hg
  obtain ⟨sub, hsub, -⟩ := List.any_eq_true.mp hg.2
  exact List.ne_nil_of_mem hsub

/-! ## The claims -/

/-- Claim C1, counterexample to the claim as stated: on the content
`depends_on("a\nb")` the extractor captures the single token `a\nb` — the
class `[^"]+` matches a newline — while no line of the content matches the
per-line pattern, so the extracted list is not the list of per-line tokens. -/
theorem claim1_counterexample :
    getDeps ("depends_on(\"a\nb\")".toList) = [['a', '\n', 'b']]
    ∧ (splitChar '\n' ("depends_on(\"a\nb\")".toList)).filterMap lineDep = []
    ∧ getDeps ("depends_on(\"a\nb\")".toList)
        ≠ (splitChar '\n' ("depends_on(\"a\nb\")".toList)).filterMap lineDep := by
  refine ⟨by decide, by decide, by decide⟩

/-- Claim C1 (amended): for every module definition file content none of whose
extracted dependency tokens spans a line break, the dependency list extracted
by `get_module_dependency`'s regular expression equals the ordered list of
`<name>` tokens taken from lines that match `depends_on("<name>")` at line
start after optional leading whitespace — case-sensitive, at most one match
per line, in file order — and contains nothing from mid-line or otherwise
non-anchored occurrences. -/
theorem claim1_extraction_per_line (content : Str)
    (h : ∀ tk ∈ getDeps content, '\n' ∉ tk) :
    getDeps content = (splitChar '\n' content).filterMap lineDep :=
  getDeps_eq_lines_aux content.length content le_rfl h

/-- Witness for C1 at a concrete three-line content: an anchored match, an
indented anchored match, and a mid-line occurrence that is not captured. -/
theorem claim1_extraction_per_line_witness :
    (∀ tk ∈ getDeps
        ("depends_on(\"numpy\")\n  depends_on(\"mpi4py\")\nx depends_on(\"no\")".toList),
      '\n' ∉ tk)
    ∧ getDeps
        ("depends_on(\"numpy\")\n  depends_on(\"mpi4py\")\nx depends_on(\"no\")".toList)
      = (splitChar '\n'
          ("depends_on(\"numpy\")\n  depends_on(\"mpi4py\")\nx depends_on(\"no\")".toList)).filterMap
          lineDep :=
  ⟨by decide, claim1_extraction_per_line _ (by decide)⟩

/-- Claim C2: `stacked_module_path_cleanup` keeps a walked path exactly when
its `'/'`-segment count equals the expected depth of the collection's layout:
7 for `MPI`, 6 for `Python`, 7 for `Compilers`; every other segment count
(off by one or otherwise) is rejected and the path is discarded. -/
theorem claim2_cleanup_exact_depth (modules : List Str) (m : Str) :
    (m ∈ (stacked_module_path_cleanup modules ("MPI".toList)).getD []
      ↔ m ∈ modules ∧ (splitChar '/' m).length = 7)
    ∧ (m ∈ (stacked_module_path_cleanup modules ("Python".toList)).getD []
      ↔ m ∈ modules ∧ (splitChar '/' m).length = 6)
    ∧ (m ∈ (stacked_module_path_cleanup modules ("Compilers".toList)).getD []
      ↔ m ∈ modules ∧ (splitChar '/' m).length = 7) := by
  refine ⟨?_, ?_, ?_⟩
  · rw [stacked_module_path_cleanup, if_pos rfl]
    simp [List.mem_filter]
  · rw [stacked_module_path_cleanup, if_neg (by decide), if_pos rfl]
    simp [List.mem_filter]
  · rw [stacked_module_path_cleanup, if_neg (by decide), if_neg (by decide),
      if_pos rfl]
    simp [List.mem_filter]

/-- Claim C3, counterexample to the claim as stated: a group whose single
record has the keyword `mpi` in its package-identity field but an empty
dependency-string field is retained by `Filter`, although no dependency
string contains the keyword (`FilterByDependency`, the spec's reading, drops
it). -/
theorem claim3_counterexample :
    Filter [[["openmpi/4.1".toList, []]]] ("mpi".toList)
      = [[["openmpi/4.1".toList, []]]]
    ∧ FilterByDependency [[["openmpi/4.1".toList, []]]] ("mpi".toList) = [] := by
  refine ⟨by decide, by decide⟩

/-- Claim C3 (amended): `Filter` retains exactly those groups in which *some
field of some record* — dependency string, package identity or context field
alike — contains the keyword as a case-sensitive substring; a group none of
whose records has any keyword-containing field is removed. -/
theorem claim3_filter_any_field (data : List (List (List Str))) (kw : Str)
    (g : List (List Str)) :
    g ∈ Filter data kw
      ↔ g ∈ data ∧ ∃ r ∈ g, ∃ fld ∈ r, kw <:+: fld := by
  rw [Filter, List.mem_filter]
  simp only [List.any_eq_true, strIn_iff]

/-- Claim C4, behaviour at concrete inputs: a successfully read file with no
`depends_on` declaration yields a record whose dependency field is the empty
string; a read failing with an exception other than `FileNotFoundError` is
skipped non-fatally; but a read failing with `FileNotFoundError` aborts the
whole scan (the handler's f-string evaluates the undefined name `filename`,
raising `NameError`), losing even the records of previously processed
files. -/
theorem claim4_read_failure_behaviour :
    get_module_dependency ("pkg".toList)
        [("1.0".toList, ReadResult.ok ("-- no deps here".toList))]
      = Except.ok [["pkg/1.0".toList, []]]
    ∧ get_module_dependency ("pkg".toList)
        [("1.0".toList, ReadResult.failure ("denied".toList))]
      = Except.ok []
    ∧ get_module_dependency ("pkg".toList)
        [("1.0".toList, ReadResult.ok ("-- no deps here".toList)),
          ("2.0".toList, ReadResult.fnf)]
      = Except.error () :=
  ⟨rfl, rfl, rfl⟩

/-- Claim C5, counterexample to the claim as stated: filtering an MPI group
with no `mpi`-containing field by keyword `mpi` makes the branch print the
line `0 softwares found for MPI` — plural `softwares`, not the claimed
`0 software found for MPI`; an output consisting of one empty group
(possible in the flat branch of `main`) has an empty row list yet is rendered
as a table, not as the zero-count message; and the claim's scenario is also
false: an MPI record for package `mpi4py/3.1` that declares *no* dependency
at all (empty dependency string) survives the filter through its
package-identity field, so a table is printed instead of the zero-count
line. -/
theorem claim5_counterexample :
    emitReport ["MPI Ver.".toList, "Compiler".toList, "MPI Packages".toList,
        "Dependency".toList]
      (Filter [[["4.1".toList, "gcc".toList, "foo/1.0".toList, "numpy".toList]]]
        ("mpi".toList))
      ("MPI".toList)
      = Report.zeroFound ("0 softwares found for MPI".toList)
    ∧ "0 softwares found for MPI".toList ≠ "0 software found for MPI".toList
    ∧ emitReport ["Packages".toList, "Dependency".toList] [[]] ("X".toList)
      = Report.table ["Packages".toList, "Dependency".toList] []
    ∧ emitReport ["MPI Ver.".toList, "Compiler".toList, "MPI Packages".toList,
        "Dependency".toList]
      (Filter [[["4.1".toList, "gcc".toList, "mpi4py/3.1".toList, []]]]
        ("mpi".toList))
      ("MPI".toList)
      = Report.table ["MPI Ver.".toList, "Compiler".toList, "MPI Packages".toList,
        "Dependency".toList]
        [["4.1".toList, "gcc".toList, "mpi4py/3.1".toList, []]] := by
  refine ⟨by decide, by decide, by decide, by decide⟩

/-- Claim C5 (amended): a collection's report branch emits exactly the line
`0 softwares found for <collection>` (note the plural `softwares`) precisely
when the list of per-module record groups is empty; after keyword filtering
the group list is empty exactly when the flattened row list is; and in
particular, filtering collection `MPI` by keyword `mpi` when no field of any
MPI record — dependency string, package identity or context field — contains
`mpi` outputs exactly `0 softwares found for MPI`. -/
theorem claim5_zero_message (hs : List Str)
    (output groups : List (List (List Str))) (kw col : Str) :
    (emitReport hs output col
        = Report.zeroFound ("0 softwares found for ".toList ++ col)
      ↔ output = [])
    ∧ (emitReport hs (Filter groups kw) col
        = Report.zeroFound ("0 softwares found for ".toList ++ col)
      ↔ (Filter groups kw).flatten = [])
    ∧ ((∀ g ∈ groups, ∀ r ∈ g, ∀ fld ∈ r, ¬(kw <:+: fld)) →
      emitReport hs (Filter groups kw) col
        = Report.zeroFound ("0 softwares found for ".toList ++ col)) := by
  have hgen : ∀ out : List (List (List Str)),
      emitReport hs out col
        = Report.zeroFound ("0 softwares found for ".toList ++ col)
      ↔ out = [] := by
    intro out
    unfold emitReport
    split
    · rename_i hlen
      constructor
      · intro h
        exact absurd h (by simp)
      · intro h
        subst h
        simp at hlen
    · rename_i hlen
      have hout : out = [] := by
        simpa using hlen
      simp [hout]
  refine ⟨hgen output, ?_, ?_⟩
  · rw [hgen (Filter groups kw)]
    constructor
    · intro h
      rw [h]
      rfl
    · intro h
      cases hF : Filter groups kw with
      | nil => rfl
      | cons g t =>
        exfalso
        have hg : g ∈ Filter groups kw := by
          rw [hF]
          exact List.mem_cons_self _ _
        rw [hF, List.flatten_cons, List.append_eq_nil] at h
        exact Filter_mem_ne_nil g hg h.1
  · intro hnone
    have hF : Filter groups kw = [] := by
      rw [Filter, List.filter_eq_nil_iff]
      intro g hg
      rw [List.any_eq_true]
      rintro ⟨r, hr, hrany⟩
      rw [List.any_eq_true] at hrany
      obtain ⟨fld, hfld, hin⟩ := hrany
      exact hnone g hg r hr fld hfld (strIn_iff.mp hin)
    rw [hF]
    rfl

/-- Witness for C5's scenario clause: an MPI group none of whose fields
contains `mpi` is filtered away entirely and the zero-count line is
emitted. -/
theorem claim5_zero_message_witness :
    (∀ g ∈ ([[["4.1".toList, "gcc".toList, "foo/1.0".toList, "numpy".toList]]] :
        List (List (List Str))),
      ∀ r ∈ g, ∀ fld ∈ r, ¬("mpi".toList <:+: fld))
    ∧ emitReport ["MPI Ver.".toList, "Compiler".toList, "MPI Packages".toList,
        "Dependency".toList]
      (Filter [[["4.1".toList, "gcc".toList, "foo/1.0".toList, "numpy".toList]]]
        ("mpi".toList))
      ("MPI".toList)
      = Report.zeroFound ("0 softwares found for ".toList ++ "MPI".toList) :=
  ⟨by decide,
    (claim5_zero_message
      ["MPI Ver.".toList, "Compiler".toList, "MPI Packages".toList,
        "Dependency".toList]
      []
      [[["4.1".toList, "gcc".toList, "foo/1.0".toList, "numpy".toList]]]
      ("mpi".toList) ("MPI".toList)).2.2 (by decide)⟩

/-- Claim C6: when the user-supplied collection list contains a name that is
not among the discovered collections, `main` prints `Invalid Collection Name`
and exits with status 1 before scanning anything. -/
theorem claim6_invalid_collection (discovered req : List Str) (x : Str)
    (hx : x ∈ req) (hnd : x ∉ discovered) :
    selectCollections discovered (some req)
      = Except.error ("Invalid Collection Name".toList) := by
  unfold selectCollections
  have hall : (req.all fun y =>
      (discovered.filter fun col => col != "Collections".toList).contains y)
      = false := by
    apply Bool.eq_false_iff.mpr
    intro hall
    have hc := List.all_eq_true.mp hall x hx
    have hmem : x ∈ discovered.filter fun col => col != "Collections".toList := by
      simpa using hc
    exact hnd (List.mem_of_mem_filter hmem)
  simp only [hall, Bool.false_eq_true, if_false]

/-- Witness for C6: requesting `Bogus` when only `MPI` and `Compilers` are
discovered is rejected with the error message. -/
theorem claim6_invalid_collection_witness :
    ("Bogus".toList ∈ ["Bogus".toList]
      ∧ "Bogus".toList ∉ ["MPI".toList, "Compilers".toList])
    ∧ selectCollections ["MPI".toList, "Compilers".toList]
        (some ["Bogus".toList])
      = Except.error ("Invalid Collection Name".toList) :=
  ⟨⟨by decide, by decide⟩,
    claim6_invalid_collection ["MPI".toList, "Compilers".toList]
      ["Bogus".toList] ("Bogus".toList) (by decide) (by decide)⟩

/-- Claim C7, behaviour at a concrete listing: `get_module_names` returns the
non-directory entry `stray.txt` as a module name, because the comprehension's
guard tests `os.path.isdir` of the collection directory itself rather than of
each entry — contradicting the claim and the function's own docstring, which
promise subdirectory names only. -/
theorem claim7_nondir_entries_returned :
    get_module_names [("moduleA".toList, true), ("stray.txt".toList, false)] true
      = ["moduleA".toList, "stray.txt".toList]
    ∧ get_module_names [("moduleA".toList, true), ("stray.txt".toList, false)] true
      ≠ ["moduleA".toList] :=
  ⟨rfl, by decide⟩

/-- Claim C8: `stacked_module_path_cleanup` reaches `sys.exit(1)` — a fatal
non-zero termination — exactly for collection names other than `MPI`,
`Python` and `Compilers`; for the known names it returns normally and the
surviving paths form a sublist of the input (individually rejected paths are
silently excluded, with no error). -/
theorem claim8_unknown_collection_fatal (modules : List Str) (col : Str) :
    (stacked_module_path_cleanup modules col = none
      ↔ col ≠ "MPI".toList ∧ col ≠ "Python".toList ∧ col ≠ "Compilers".toList)
    ∧ ∀ out, stacked_module_path_cleanup modules col = some out
        → out.Sublist modules := by
  unfold stacked_module_path_cleanup
  split_ifs with h1 h2 h3
  · exact ⟨by simp [h1], fun out hout => by
      cases hout
      exact List.filter_sublist modules⟩
  · exact ⟨by simp [h2], fun out hout => by
      cases hout
      exact List.filter_sublist modules⟩
  · exact ⟨by simp [h3], fun out hout => by
      cases hout
      exact List.filter_sublist modules⟩
  · exact ⟨⟨fun _ => ⟨h1, h2, h3⟩, fun _ => rfl⟩, fun out hout => by cases hout⟩

/-- Claim C9: `Filter` is idempotent — filtering an already-filtered group
list again with the same keyword changes nothing. -/
theorem claim9_filter_idempotent (data : List (List (List Str))) (kw : Str) :
    Filter (Filter data kw) kw = Filter data kw := by
  simp only [Filter, List.filter_filter, Bool.and_self]

/-- Claim C10: `Filter` is a pure selection — its output is an
order-preserving sublist of its input (retained groups appear unchanged), and
a group containing no records is never retained, for any keyword including
the empty one. -/
theorem claim10_filter_pure_selection (data : List (List (List Str)))
    (kw : Str) :
    (Filter data kw).Sublist data
    ∧ ∀ g ∈ Filter data kw, g ∈ data ∧ g ≠ [] := by
  refine ⟨List.filter_sublist data, fun g hg => ?_⟩
  refine ⟨List.mem_of_mem_filter hg, Filter_mem_ne_nil g hg⟩

end HpcSU
